import Mathlib

/-!
Verification development for the zGrid span-processing core.

Texts are modelled as `List Char` (Python strings, codepoint-indexed).
Python integers are modelled as `Int`; Python float scores are modelled as `ℚ`
(the merge logic only *compares* scores, never computes with them, so any
linearly ordered field with decidable order is a faithful model of the
comparisons).  Python's exceptions (IndexError) are modelled with `Option`.
-/

set_option linter.unusedVariables false

namespace ZGrid

/-! ## Data model: the span dictionaries built by `pii_service/utils.py::to_entity_dict` -/

/-- Embedding of the span dictionaries produced by `to_entity_dict` in
`src/pii_service/utils.py`: keys `type`, `value`, `start`, `end`, `score`,
`replacement`.  `to_entity_dict` always populates every key, so the fields are
total here. -/
structure Span where
  type : String
  value : String
  start : Int
  «end» : Int
  score : ℚ
  replacement : List Char
deriving DecidableEq

/-- The transient `_src` bookkeeping tag attached to each span inside
`merge_spans` (`s["_src"] = "presidio" / "gliner"`) and stripped before
returning. -/
inductive Src where
  | presidio : Src
  | gliner : Src
deriving DecidableEq

/-! ## Python slicing helpers

`pyBound n i` resolves one slice index the way CPython does for `text[i:j]`
(step 1): a negative index counts from the end and is clamped below at `0`;
a non-negative index is clamped above at the length. -/

/-- Resolution of a single Python slice index against a string of length `n`. -/
def pyBound (n : Nat) (i : Int) : Nat :=
  if i < 0 then (i + n).toNat else min i.toNat n

/-- Python `text[i:j]` (for step 1 slices). -/
def pySlice (l : List Char) (i j : Int) : List Char :=
  (l.take (pyBound l.length j)).drop (pyBound l.length i)

/-- Python `text[i:]`. -/
def pyDropFrom (l : List Char) (i : Int) : List Char :=
  l.drop (pyBound l.length i)

/-- Plain `Nat`-indexed slice `l[i:j]` used on the specification side:
the elements at positions `i ≤ k < j`. -/
def sliceN (l : List Char) (i j : Nat) : List Char :=
  (l.take j).drop i

/-! ## `src/pii_service/utils.py::merge_spans` (lines 34-68) -/

/-- The sort key of `merge_spans`: `spans.sort(key=lambda s: (s["start"], -s["end"]))`,
expressed as the non-strict lexicographic order the stable sort realises. -/
def spanKeyLE (a b : Span × Src) : Prop :=
  a.1.start < b.1.start ∨ (a.1.start = b.1.start ∧ b.1.«end» ≤ a.1.«end»)

instance : DecidableRel spanKeyLE := fun a b =>
  inferInstanceAs (Decidable (a.1.start < b.1.start ∨
    (a.1.start = b.1.start ∧ b.1.«end» ≤ a.1.«end»)))

instance : IsTotal (Span × Src) spanKeyLE := by
  constructor; intro a b; unfold spanKeyLE; omega

instance : IsTrans (Span × Src) spanKeyLE := by
  constructor; intro a b c; unfold spanKeyLE; omega

/-- One iteration of the merge sweep of `merge_spans` (the body of the
`for s in spans:` loop, lines 47-65).  The accumulator is kept reversed, so
its head is Python's `merged[-1]`; `merged.append(s)` is `s :: acc` and
`merged[-1] = s` is `s :: rest`. -/
def sweepStep (acc : List (Span × Src)) (s : Span × Src) : List (Span × Src) :=
  match acc with
  | [] => [s]
  | last :: rest =>
    if s.1.start < last.1.«end» ∧ last.1.start < s.1.«end» then
      match last.2, s.2 with
      | Src.presidio, Src.gliner => last :: rest
      | Src.gliner, Src.presidio => s :: rest
      | _, _ =>
        if s.1.«end» - s.1.start > last.1.«end» - last.1.start ∨
            (s.1.«end» - s.1.start = last.1.«end» - last.1.start ∧
              last.1.score < s.1.score) then
          s :: rest
        else last :: rest
    else s :: last :: rest

/-- Embedding of `merge_spans(text, presidio_spans, gliner_spans)`
(`src/pii_service/utils.py` lines 34-68).  The `text` argument is accepted and
ignored exactly as in the source.  Tagging with `_src` and stripping it at the
end are modelled by pairing with `Src` and projecting it away; Python's stable
`list.sort` is modelled by `List.insertionSort` with the non-strict key order. -/
def merge_spans (text : List Char) (presidio_spans gliner_spans : List Span) :
    List Span :=
  let spans := presidio_spans.map (fun s => (s, Src.presidio)) ++
    gliner_spans.map (fun s => (s, Src.gliner))
  let sorted := List.insertionSort spanKeyLE spans
  ((sorted.foldl sweepStep []).reverse).map Prod.fst

/-! ## `src/pii_service/utils.py::apply_redactions` (lines 22-32) -/

/-- The sort key of `apply_redactions`: `sorted(spans, key=lambda x: x["start"])`. -/
def startLE (a b : Span) : Prop := a.start ≤ b.start

instance : DecidableRel startLE := fun a b =>
  inferInstanceAs (Decidable (a.start ≤ b.start))

instance : IsTotal Span startLE := by
  constructor; intro a b; unfold startLE; omega

instance : IsTrans Span startLE := by
  constructor; intro a b c; unfold startLE; omega

/-- Embedding of `apply_redactions(text, spans)` (`src/pii_service/utils.py`
lines 22-32): sort by `start`, then walk the text appending `text[i:start]`,
the span's `replacement`, advancing the cursor to `end`; finally append
`text[i:]`. -/
def apply_redactions (text : List Char) (spans : List Span) : List Char :=
  match spans with
  | [] => text
  | _ :: _ =>
    let sorted := List.insertionSort startLE spans
    let step := fun (acc : List Char × Int) (s : Span) =>
      (acc.1 ++ pySlice text acc.2 s.start ++ s.replacement, s.«end»)
    let r := sorted.foldl step ([], 0)
    r.1 ++ pyDropFrom text r.2

/-! ## `src/tox_service/utils.py::redact_ranges` (lines 46-61) -/

/-- The sort key of `redact_ranges`: `sorted(bad_ranges, key=lambda x: x[0])`. -/
def fstLE (a b : Int × Int) : Prop := a.1 ≤ b.1

instance : DecidableRel fstLE := fun a b =>
  inferInstanceAs (Decidable (a.1 ≤ b.1))

instance : IsTotal (Int × Int) fstLE := by
  constructor; intro a b; unfold fstLE; omega

instance : IsTrans (Int × Int) fstLE := by
  constructor; intro a b c; unfold fstLE; omega

/-- Embedding of `redact_ranges(text, bad_ranges, token)`
(`src/tox_service/utils.py` lines 46-61): each bound is clamped with
`max(0, min(len(text), ·))`, a range starting before the cursor is skipped,
otherwise `text[i:s]` and the token are appended and the cursor jumps to `e`. -/
def redact_ranges (text : List Char) (bad_ranges : List (Int × Int))
    (token : List Char) : List Char :=
  match bad_ranges with
  | [] => text
  | _ :: _ =>
    let sorted := List.insertionSort fstLE bad_ranges
    let step := fun (acc : List Char × Int) (r : Int × Int) =>
      let s := max 0 (min (text.length : Int) r.1)
      let e := max 0 (min (text.length : Int) r.2)
      if s < acc.2 then acc
      else (acc.1 ++ pySlice text acc.2 s ++ token, e)
    let r := sorted.foldl step ([], 0)
    r.1 ++ pyDropFrom text r.2

/-! ## `src/tox_service/utils.py::sentences_with_offsets` (lines 14-36)

The NLTK tokenizer `sent_tokenize` is an external collaborator; its output is
passed in as the `sentences` argument.  Python's builtin `str.find(sub, start)`
is modelled by `findSub`/`str_find`. -/

/-- Lowest offset in `t` at which `sub` occurs (Python `t.find(sub)` for a
non-negative start already dropped): a position is admissible only while
`len(sub)` still fits, which is exactly CPython's search bound. -/
def findSub (sub : List Char) : List Char → Option Nat
  | [] => if sub.length = 0 then some 0 else none
  | a :: t =>
    if sub.length ≤ t.length + 1 then
      if (a :: t).take sub.length = sub then some 0
      else (findSub sub t).map (fun m => m + 1)
    else none

/-- Python `text.find(sub, start)` for `start ≥ 0`, returning `none` for `-1`. -/
def str_find (text sub : List Char) (start : Nat) : Option Nat :=
  if start ≤ text.length then (findSub sub (text.drop start)).map (fun m => m + start)
  else none

/-- The `for sentence in sentences:` loop of `sentences_with_offsets`
(lines 24-32): find the sentence from the cursor, fall back to the cursor
itself when `find` fails, emit `(start, start + len(sentence), sentence)` and
advance the cursor to the emitted end. -/
def offsetsLoop (text : List Char) : List (List Char) → Nat → List (Nat × Nat × List Char)
  | [], _ => []
  | sent :: rest, cur =>
    let start := (str_find text sent cur).getD cur
    let e := start + sent.length
    (start, e, sent) :: offsetsLoop text rest e

/-- Embedding of `sentences_with_offsets(text)` (`src/tox_service/utils.py`
lines 14-36), with the external tokenizer's output supplied as `sentences`.
`not text.strip()` is the all-whitespace test; the final `if not out:` fallback
fires exactly when the tokenizer returned no sentences. -/
def sentences_with_offsets (text : List Char) (sentences : List (List Char)) :
    List (Nat × Nat × List Char) :=
  if text.all Char.isWhitespace then []
  else if (offsetsLoop text sentences 0).isEmpty then [(0, text.length, text)]
  else offsetsLoop text sentences 0

/-! ## `src/tox_service/profanity.py::detect_and_apply` (lines 33-44): the diff scan -/

/-- A changed-region record produced by the scan in `detect_and_apply`:
`{"token": text[i:j], "start": i, "end": j}`. -/
structure TokSpan where
  token : List Char
  start : Nat
  «end» : Nat
deriving DecidableEq

/-- Length of the maximal leading run of positions at which the two lists hold
differing characters (the inner `while j < len(text) and text[j] != censored[j]`
extension of the scan). -/
def runLen : List Char → List Char → Nat
  | a :: as, b :: bs => if a ≠ b then runLen as bs + 1 else 0
  | _, _ => 0

/-- Fuel-indexed form of the changed-region scan of `detect_and_apply`
(`src/tox_service/profanity.py` lines 33-44).  The scan walks `text` by
index; reading `censored[i]` while `i < len(text)` but `i ≥ len(censored)`
is Python's IndexError, modelled as `none`.  The fuel only bounds the
recursion depth: with `fuel ≥ length of the first list` (as in `diffScan`)
the fuel-exhaustion case is unreachable. -/
def diffScanF : Nat → List Char → List Char → Nat → Option (List TokSpan)
  | _, [], _, _ => some []
  | _, _ :: _, [], _ => none
  | 0, _ :: _, _ :: _, _ => none
  | fuel + 1, a :: as, b :: bs, i =>
    if a = b then diffScanF fuel as bs (i + 1)
    else
      let k := runLen as bs
      match diffScanF fuel (as.drop k) (bs.drop k) (i + 1 + k) with
      | none => none
      | some rest => some (⟨a :: as.take k, i, i + 1 + k⟩ :: rest)

/-- The changed-region scan of `detect_and_apply` on `(text, censored)`,
starting at index `i`. -/
def diffScan (text censored : List Char) (i : Nat) : Option (List TokSpan) :=
  diffScanF text.length text censored i

/-- Embedding of `detect_and_apply(text, action)` with the external censoring
detector's output passed in as `censored` (`src/tox_service/profanity.py`
lines 23-56).  Returns `(clean_text, spans)`, or `none` for the IndexError
raised by the scan when `censored` is shorter than `text`. -/
def detect_and_apply (text censored : List Char) (action : String) :
    Option (List Char × List TokSpan) :=
  if censored = text then some (text, [])
  else
    match diffScan text censored 0 with
    | none => none
    | some spans =>
      if action = "mask" then some (censored, spans)
      else if action = "remove" then
        let step := fun (acc : List Char × Nat) (s : TokSpan) =>
          (acc.1 ++ sliceN text acc.2 s.start, s.«end»)
        let r := spans.foldl step ([], 0)
        some (r.1 ++ text.drop r.2, spans)
      else some (censored, spans)

/-! ## Specification-side definitions -/

/-- Modelled from the spec (§4.3 Replace policy): the concatenation, in span
order, of the untouched slice before each span followed by that span's
replacement, ending with the tail after the last span. -/
def replaceSpec (text : List Char) : Nat → List Span → List Char
  | i, [] => text.drop i
  | i, s :: rest =>
    sliceN text i s.start.toNat ++ s.replacement ++ replaceSpec text s.«end».toNat rest

/-- The clamp `max(0, min(len(text), i))` applied by `redact_ranges` to each
offset, as a `Nat` index. -/
def clampIdx (n : Nat) (i : Int) : Nat :=
  (max 0 (min (n : Int) i)).toNat

/-! ## Lemmas about the merge sweep -/

lemma sweepStep_nil (s : Span × Src) : sweepStep [] s = [s] := rfl

lemma sweepStep_no_overlap {last s : Span × Src} {rest : List (Span × Src)}
    (h : ¬(s.1.start < last.1.«end» ∧ last.1.start < s.1.«end»)) :
    sweepStep (last :: rest) s = s :: last :: rest := by
  simp only [sweepStep, if_neg h]

lemma sweepStep_overlap_cases {last s : Span × Src} {rest : List (Span × Src)}
    (hov : s.1.start < last.1.«end» ∧ last.1.start < s.1.«end») :
    sweepStep (last :: rest) s = last :: rest ∨ sweepStep (last :: rest) s = s :: rest := by
  simp only [sweepStep, if_pos hov]
  cases hl2 : last.2 <;> cases hs2 : s.2 <;> simp only
  · split <;> simp
  · simp
  · simp
  · split <;> simp

lemma mem_sweepStep {acc : List (Span × Src)} {s x : Span × Src}
    (hx : x ∈ sweepStep acc s) : x = s ∨ x ∈ acc := by
  cases acc with
  | nil =>
    simp only [sweepStep, List.mem_singleton] at hx
    exact Or.inl hx
  | cons last rest =>
    simp only [sweepStep] at hx
    split at hx
    all_goals try split at hx
    all_goals try split at hx
    all_goals simp only [List.mem_cons] at hx ⊢
    all_goals tauto

lemma mem_foldl_sweepStep {x : Span × Src} :
    ∀ {l acc : List (Span × Src)}, x ∈ l.foldl sweepStep acc → x ∈ acc ∨ x ∈ l := by
  intro l
  induction l with
  | nil => intro acc hx; exact Or.inl hx
  | cons s l ih =>
    intro acc hx
    rw [List.foldl_cons] at hx
    rcases ih hx with h | h
    · rcases mem_sweepStep h with h | h
      · exact Or.inr (by simp [h])
      · exact Or.inl h
    · exact Or.inr (List.mem_cons_of_mem _ h)

/-- The sweep invariant: starting from a pairwise-separated accumulator (kept
in reverse, so the relation reads `later.end ≤ earlier.start` backwards) and a
queue of well-formed candidate spans sorted by `start`, the sweep keeps the
accumulator pairwise separated. -/
lemma sweep_inv :
    ∀ (l acc : List (Span × Src)),
      (∀ x ∈ l, x.1.start < x.1.«end») →
      (∀ x ∈ acc, x.1.start < x.1.«end») →
      List.Pairwise (fun a b : Span × Src => a.1.start ≤ b.1.start) l →
      List.Pairwise (fun a b : Span × Src => b.1.«end» ≤ a.1.start) acc →
      (∀ a : Span × Src, acc.head? = some a → ∀ b ∈ l, a.1.start ≤ b.1.start) →
      List.Pairwise (fun a b : Span × Src => b.1.«end» ≤ a.1.start) (l.foldl sweepStep acc) ∧
        ∀ x ∈ l.foldl sweepStep acc, x.1.start < x.1.«end» := by
  intro l
  induction l with
  | nil =>
    intro acc _ haccwf _ hacc _
    exact ⟨hacc, haccwf⟩
  | cons s l ih =>
    intro acc hlwf haccwf hlsort hacc hhead
    rw [List.foldl_cons]
    have hswf : s.1.start < s.1.«end» := hlwf s (by simp)
    have hlwf' : ∀ x ∈ l, x.1.start < x.1.«end» := fun x hx =>
      hlwf x (List.mem_cons_of_mem _ hx)
    have hsl : ∀ b ∈ l, s.1.start ≤ b.1.start := (List.pairwise_cons.mp hlsort).1
    have hlsort' := (List.pairwise_cons.mp hlsort).2
    cases acc with
    | nil =>
      rw [sweepStep_nil]
      refine ih [s] hlwf' ?_ hlsort' (by simp) ?_
      · intro x hx
        simp only [List.mem_singleton] at hx
        subst hx; exact hswf
      · intro a ha b hb
        simp only [List.head?_cons, Option.some.injEq] at ha
        subst ha; exact hsl b hb
    | cons last rest =>
      have hrest := List.pairwise_cons.mp hacc
      have hls : last.1.start ≤ s.1.start := hhead last rfl s (by simp)
      by_cases hov : s.1.start < last.1.«end» ∧ last.1.start < s.1.«end»
      · rcases @sweepStep_overlap_cases last s rest hov with heq | heq <;> rw [heq]
        · exact ih (last :: rest) hlwf' haccwf hlsort' hacc
            (fun a ha b hb => hhead a ha b (List.mem_cons_of_mem _ hb))
        · refine ih (s :: rest) hlwf' ?_ hlsort' ?_ ?_
          · intro x hx
            rcases List.mem_cons.mp hx with h | h
            · subst h; exact hswf
            · exact haccwf x (List.mem_cons_of_mem _ h)
          · rw [List.pairwise_cons]
            refine ⟨fun b hb => ?_, hrest.2⟩
            have := hrest.1 b hb
            omega
          · intro a ha b hb
            simp only [List.head?_cons, Option.some.injEq] at ha
            subst ha; exact hsl b hb
      · rw [sweepStep_no_overlap hov]
        have hle : last.1.«end» ≤ s.1.start := by omega
        refine ih (s :: last :: rest) hlwf' ?_ hlsort' ?_ ?_
        · intro x hx
          rcases List.mem_cons.mp hx with h | h
          · subst h; exact hswf
          · exact haccwf x h
        · rw [List.pairwise_cons]
          refine ⟨fun b hb => ?_, hacc⟩
          rcases List.mem_cons.mp hb with h | h
          · subst h; exact hle
          · have := hrest.1 b h
            omega
        · intro a ha b hb
          simp only [List.head?_cons, Option.some.injEq] at ha
          subst ha; exact hsl b hb

/-- When the queue is already pairwise separated in order, the sweep never
resolves a conflict: it just reverses the queue onto the accumulator. -/
lemma foldl_sweepStep_disjoint :
    ∀ (l acc : List (Span × Src)),
      List.Pairwise (fun a b : Span × Src => a.1.«end» ≤ b.1.start) l →
      (∀ a : Span × Src, acc.head? = some a → ∀ b ∈ l, a.1.«end» ≤ b.1.start) →
      l.foldl sweepStep acc = l.reverse ++ acc := by
  intro l
  induction l with
  | nil => intro acc _ _; rfl
  | cons s l ih =>
    intro acc hp hhead
    rw [List.foldl_cons]
    have hstep : sweepStep acc s = s :: acc := by
      cases acc with
      | nil => rfl
      | cons last rest =>
        apply sweepStep_no_overlap
        have := hhead last rfl s (by simp)
        omega
    rw [hstep, ih (s :: acc) (List.pairwise_cons.mp hp).2 ?_]
    · simp
    · intro a ha b hb
      simp only [List.head?_cons, Option.some.injEq] at ha
      subst ha
      exact (List.pairwise_cons.mp hp).1 b hb

/-- Unfolding equation for `merge_spans`. -/
lemma merge_spans_eq (text : List Char) (p g : List Span) :
    merge_spans text p g =
      ((List.insertionSort spanKeyLE
        (p.map (fun s => (s, Src.presidio)) ++ g.map (fun s => (s, Src.gliner)))).foldl
          sweepStep []).reverse.map Prod.fst := rfl

/-- C1 (amended): for well-formed inputs — every input span satisfies
`start < end` — the list returned by `merge_spans` is pairwise non-overlapping
(for positions `i < j`, `result[i].end ≤ result[j].start`) and sorted
ascending by `start`.  (The unrestricted claim fails: see
`merge_spans_not_always_disjoint`.) -/
theorem merge_spans_disjoint_sorted (text : List Char) (p g : List Span)
    (hp : ∀ s ∈ p, s.start < s.«end») (hg : ∀ s ∈ g, s.start < s.«end») :
    List.Pairwise (fun a b : Span => a.«end» ≤ b.start) (merge_spans text p g) ∧
      List.Pairwise (fun a b : Span => a.start ≤ b.start) (merge_spans text p g) := by
  have hwf : ∀ x ∈ p.map (fun s => (s, Src.presidio)) ++ g.map (fun s => (s, Src.gliner)),
      x.1.start < x.1.«end» := by
    intro x hx
    rcases List.mem_append.mp hx with h | h <;>
      · rcases List.mem_map.mp h with ⟨t, ht, rfl⟩
        first | exact hp t ht | exact hg t ht
  have hsortwf : ∀ x ∈ List.insertionSort spanKeyLE
      (p.map (fun s => (s, Src.presidio)) ++ g.map (fun s => (s, Src.gliner))),
      x.1.start < x.1.«end» := by
    intro x hx
    exact hwf x ((List.perm_insertionSort spanKeyLE _).mem_iff.mp hx)
  have hsortstart : List.Pairwise (fun a b : Span × Src => a.1.start ≤ b.1.start)
      (List.insertionSort spanKeyLE
        (p.map (fun s => (s, Src.presidio)) ++ g.map (fun s => (s, Src.gliner)))) := by
    refine List.Pairwise.imp ?_ (List.sorted_insertionSort spanKeyLE _)
    intro a b h
    rcases (show a.1.start < b.1.start ∨
      (a.1.start = b.1.start ∧ b.1.«end» ≤ a.1.«end») from h) with h | h <;> omega
  have main := sweep_inv
    (List.insertionSort spanKeyLE
      (p.map (fun s => (s, Src.presidio)) ++ g.map (fun s => (s, Src.gliner)))) []
    hsortwf (by simp) hsortstart (by simp) (by simp)
  rw [merge_spans_eq]
  constructor
  · rw [List.pairwise_map, List.pairwise_reverse]
    exact main.1
  · rw [List.pairwise_map, List.pairwise_reverse]
    refine List.Pairwise.imp_of_mem ?_ main.1
    intro a b ha hb h
    have := main.2 b hb
    omega

/-- C1 witness: the amended theorem applied at a concrete input. -/
theorem merge_spans_disjoint_sorted_witness :
    List.Pairwise (fun a b : Span => a.«end» ≤ b.start)
      (merge_spans "abcdefghij".toList [⟨"PHONE", "5551234", 0, 10, 1, "[P]".toList⟩]
        [⟨"NAME", "x", 5, 8, 0, "[G]".toList⟩]) ∧
      List.Pairwise (fun a b : Span => a.start ≤ b.start)
        (merge_spans "abcdefghij".toList [⟨"PHONE", "5551234", 0, 10, 1, "[P]".toList⟩]
          [⟨"NAME", "x", 5, 8, 0, "[G]".toList⟩]) :=
  merge_spans_disjoint_sorted _ _ _ (by decide) (by decide)

/-- C1 counterexample: with a degenerate (zero-length) input span the merge
result is *not* pairwise non-overlapping — `merge_spans` on the gliner list
`[(3,7), (3,3)]` returns both spans, and `7 ≤ 3` fails.  This refutes the
claim as stated for arbitrary input span lists. -/
theorem merge_spans_not_always_disjoint :
    ¬ List.Pairwise (fun a b : Span => a.«end» ≤ b.start)
      (merge_spans "abcdefgh".toList []
        [⟨"T", "v", 3, 7, 0, "X".toList⟩, ⟨"T", "v", 3, 3, 0, "X".toList⟩]) := by
  decide

/-- C2: whenever the candidate and the most recently accepted span overlap and
their sources differ, the presidio (structured) span wins outright: a gliner
candidate against a presidio last is discarded, and a presidio candidate
replaces a gliner last — with no comparison of score or length. -/
theorem sweepStep_structured_wins (last s : Span × Src) (rest : List (Span × Src))
    (hov : s.1.start < last.1.«end» ∧ last.1.start < s.1.«end») :
    (last.2 = Src.presidio → s.2 = Src.gliner → sweepStep (last :: rest) s = last :: rest) ∧
      (last.2 = Src.gliner → s.2 = Src.presidio → sweepStep (last :: rest) s = s :: rest) := by
  constructor <;> intro h1 h2 <;> simp [sweepStep, if_pos hov, h1, h2]

/-- C2 witness: the structured span `[0,10)` beats the semantic span `[5,8)`
with score `0.99` in both sweep orders. -/
theorem sweepStep_structured_wins_witness :
    sweepStep [(⟨"PHONE", "5551234", 0, 10, 1, "[P]".toList⟩, Src.presidio)]
        (⟨"NAME", "x", 5, 8, (99 : ℚ)/100, "[G]".toList⟩, Src.gliner) =
      [(⟨"PHONE", "5551234", 0, 10, 1, "[P]".toList⟩, Src.presidio)] ∧
    sweepStep [(⟨"NAME", "x", 5, 8, (99 : ℚ)/100, "[G]".toList⟩, Src.gliner)]
        (⟨"PHONE", "5551234", 0, 10, 1, "[P]".toList⟩, Src.presidio) =
      [(⟨"PHONE", "5551234", 0, 10, 1, "[P]".toList⟩, Src.presidio)] :=
  ⟨(sweepStep_structured_wins _ _ _ (by constructor <;> decide)).1 rfl rfl,
    (sweepStep_structured_wins _ _ _ (by constructor <;> decide)).2 rfl rfl⟩

/-- C4 counterexample: `merge_spans` performs no validation at all — a
malformed span with `end < start` is accepted and returned in the merged
output instead of raising a validation error. -/
theorem merge_spans_accepts_malformed :
    merge_spans "abcdefgh".toList [] [⟨"T", "v", 5, 3, 0, "X".toList⟩] =
      [⟨"T", "v", 5, 3, 0, "X".toList⟩] := by
  decide

/-- C4 (amended): `merge_spans` never rejects its input; any single span —
malformed or not, from either source — is sorted, swept and returned
unchanged, with no validation step. -/
theorem merge_spans_no_validation (text : List Char) (s : Span) :
    merge_spans text [s] [] = [s] ∧ merge_spans text [] [s] = [s] :=
  ⟨rfl, rfl⟩

/-- C9 (amended): a single-source span list that is well-formed and pairwise
non-overlapping *in order* (`S[i].end ≤ S[j].start` for `i < j`, which forces
start-ascending order) is returned unchanged by `merge_spans`, whichever
source it is given as.  (Order matters: see
`merge_spans_single_source_not_id`.) -/
theorem merge_spans_single_source_id (text : List Char) (S : List Span)
    (hwf : ∀ s ∈ S, s.start < s.«end»)
    (hd : List.Pairwise (fun a b : Span => a.«end» ≤ b.start) S) :
    merge_spans text S [] = S ∧ merge_spans text [] S = S := by
  have key : ∀ src : Src,
      (List.insertionSort spanKeyLE (S.map (fun s => (s, src)))).foldl sweepStep [] =
        (S.map (fun s => (s, src))).reverse ++ [] := by
    intro src
    have hsorted : List.Sorted spanKeyLE (S.map (fun s => (s, src))) := by
      rw [List.Sorted, List.pairwise_map]
      refine List.Pairwise.imp_of_mem ?_ hd
      intro a b ha hb h
      have := hwf a ha
      refine Or.inl ?_
      show a.start < b.start
      omega
    rw [hsorted.insertionSort_eq]
    refine foldl_sweepStep_disjoint _ [] ?_ ?_
    · rw [List.pairwise_map]
      exact hd
    · simp
  constructor
  · rw [merge_spans_eq]
    simp only [List.map_nil, List.append_nil]
    rw [key Src.presidio]
    simp [Function.comp_def]
  · rw [merge_spans_eq]
    simp only [List.map_nil, List.nil_append]
    rw [key Src.gliner]
    simp [Function.comp_def]

/-- C9 witness: the amended theorem applied at a concrete ordered
non-overlapping list. -/
theorem merge_spans_single_source_id_witness :
    merge_spans "abcdefgh".toList
        [⟨"T", "v", 0, 3, 0, "X".toList⟩, ⟨"T", "v", 5, 8, 0, "X".toList⟩] [] =
      [⟨"T", "v", 0, 3, 0, "X".toList⟩, ⟨"T", "v", 5, 8, 0, "X".toList⟩] ∧
    merge_spans "abcdefgh".toList []
        [⟨"T", "v", 0, 3, 0, "X".toList⟩, ⟨"T", "v", 5, 8, 0, "X".toList⟩] =
      [⟨"T", "v", 0, 3, 0, "X".toList⟩, ⟨"T", "v", 5, 8, 0, "X".toList⟩] :=
  merge_spans_single_source_id _ _ (by decide) (by decide)

/-- C9 counterexample: a non-overlapping but unsorted single-source list is
*not* returned unchanged — the internal sort reorders it. -/
theorem merge_spans_single_source_not_id :
    merge_spans "abcdefgh".toList
        [⟨"T", "v", 5, 8, 0, "X".toList⟩, ⟨"T", "v", 0, 3, 0, "X".toList⟩] [] ≠
      [⟨"T", "v", 5, 8, 0, "X".toList⟩, ⟨"T", "v", 0, 3, 0, "X".toList⟩] := by
  decide

/-- C10: every span in the output of `merge_spans` is one of the input spans,
with all of its fields (`type`, `value`, `start`, `end`, `score`,
`replacement`) unchanged — the merge only selects whole input spans, it never
trims, splits or synthesizes one. -/
theorem merge_spans_result_mem (text : List Char) (p g : List Span) (s : Span)
    (hs : s ∈ merge_spans text p g) : s ∈ p ++ g := by
  rw [merge_spans_eq] at hs
  rcases List.mem_map.mp hs with ⟨x, hxmem, rfl⟩
  rw [List.mem_reverse] at hxmem
  rcases mem_foldl_sweepStep hxmem with h | h
  · simp at h
  · have hx := (List.perm_insertionSort spanKeyLE
      (p.map (fun s => (s, Src.presidio)) ++ g.map (fun s => (s, Src.gliner)))).mem_iff.mp h
    rw [List.mem_append] at hx ⊢
    rcases hx with h' | h'
    · rcases List.mem_map.mp h' with ⟨t, ht, hteq⟩
      left
      rw [← hteq]
      exact ht
    · rcases List.mem_map.mp h' with ⟨t, ht, hteq⟩
      right
      rw [← hteq]
      exact ht

/-- C10 witness: the membership theorem applied at a concrete input. -/
theorem merge_spans_result_mem_witness :
    (⟨"T", "v", 0, 2, 0, "X".toList⟩ : Span) ∈
      ([⟨"T", "v", 0, 2, 0, "X".toList⟩] : List Span) ++ ([] : List Span) :=
  merge_spans_result_mem "abcd".toList _ _ _ (by decide)

/-! ## Lemmas about Python slicing and the reconstruction functions -/

lemma take_min (l : List Char) (n : Nat) : l.take (min n l.length) = l.take n := by
  rcases le_or_lt n l.length with h | h
  · rw [min_eq_left h]
  · rw [min_eq_right h.le, List.take_length, List.take_of_length_le h.le]

lemma drop_min_of_le (m : List Char) (n k : Nat) (h : m.length ≤ k) :
    m.drop (min n k) = m.drop n := by
  rcases le_or_lt n k with h' | h'
  · rw [min_eq_left h']
  · rw [min_eq_right h'.le, List.drop_eq_nil_of_le h, List.drop_eq_nil_of_le (h.trans h'.le)]

lemma pyBound_zero (n : Nat) : pyBound n 0 = 0 := by
  unfold pyBound
  rw [if_neg (by omega)]
  omega

lemma pyBound_clamped (n : Nat) (i : Int) :
    pyBound n (max 0 (min (n : Int) i)) = clampIdx n i := by
  unfold pyBound clampIdx
  rw [if_neg (by omega)]
  omega

lemma pySlice_nonneg (l : List Char) (i j : Int) (hi : 0 ≤ i) (hj : 0 ≤ j) :
    pySlice l i j = sliceN l i.toNat j.toNat := by
  unfold pySlice sliceN pyBound
  rw [if_neg (by omega), if_neg (by omega), take_min]
  exact drop_min_of_le _ _ _ (by rw [List.length_take]; omega)

lemma pyDropFrom_nonneg (l : List Char) (i : Int) (hi : 0 ≤ i) :
    pyDropFrom l i = l.drop i.toNat := by
  unfold pyDropFrom pyBound
  rw [if_neg (by omega)]
  exact drop_min_of_le _ _ _ le_rfl

/-- Unfolding equation for `redact_ranges` on a single range. -/
lemma redact_ranges_singleton (text : List Char) (r : Int × Int) (tok : List Char) :
    redact_ranges text [r] tok =
      pySlice text 0 (max 0 (min (text.length : Int) r.1)) ++ tok ++
        pyDropFrom text (max 0 (min (text.length : Int) r.2)) := by
  show (if max 0 (min (text.length : Int) r.1) < (0 : Int) then (([] : List Char), (0 : Int))
      else (([] : List Char) ++ pySlice text 0 (max 0 (min (text.length : Int) r.1)) ++ tok,
        max 0 (min (text.length : Int) r.2))).1 ++
    pyDropFrom text
      (if max 0 (min (text.length : Int) r.1) < (0 : Int) then (([] : List Char), (0 : Int))
        else (([] : List Char) ++ pySlice text 0 (max 0 (min (text.length : Int) r.1)) ++ tok,
          max 0 (min (text.length : Int) r.2))).2 = _
  rw [if_neg (by omega)]
  simp [List.append_assoc]

/-- Unfolding equation for `apply_redactions` on a non-empty list. -/
lemma apply_redactions_cons (text : List Char) (s : Span) (rest : List Span) :
    apply_redactions text (s :: rest) =
      ((List.insertionSort startLE (s :: rest)).foldl
        (fun (acc : List Char × Int) (t : Span) =>
          (acc.1 ++ pySlice text acc.2 t.start ++ t.replacement, t.«end»)) ([], 0)).1 ++
      pyDropFrom text ((List.insertionSort startLE (s :: rest)).foldl
        (fun (acc : List Char × Int) (t : Span) =>
          (acc.1 ++ pySlice text acc.2 t.start ++ t.replacement, t.«end»)) ([], 0)).2 := rfl

/-- C3 counterexample: a malformed span (`start=10, end=5` on a length-5
text) raises no error in either reconstruction routine — `redact_ranges`
silently clamps both offsets to the text bounds and produces
`"hello[TOXIC]"`, and `apply_redactions` silently produces `"helloX"` via
Python slice clamping. -/
theorem reconstruct_malformed_no_error :
    redact_ranges "hello".toList [(10, 5)] "[TOXIC]".toList = "hello[TOXIC]".toList ∧
      apply_redactions "hello".toList [⟨"T", "v", 10, 5, 0, "X".toList⟩] =
        "helloX".toList := by
  constructor <;> decide

/-- C3 (amended): neither reconstruction routine validates spans.
`redact_ranges` clamps each offset into `[0, len(text)]` with
`max(0, min(len(text), ·))` and always produces output, and
`apply_redactions` applies Python slice semantics (which clamp implicitly)
and always produces output; no offsets are rejected. -/
theorem reconstruct_clamps_never_raises :
    (∀ (text : List Char) (r : Int × Int) (tok : List Char),
      redact_ranges text [r] tok =
        text.take (clampIdx text.length r.1) ++ tok ++
          text.drop (clampIdx text.length r.2)) ∧
    (∀ (text : List Char) (sp : Span),
      apply_redactions text [sp] =
        pySlice text 0 sp.start ++ sp.replacement ++ pyDropFrom text sp.«end») := by
  constructor
  · intro text r tok
    rw [redact_ranges_singleton]
    unfold pySlice pyDropFrom
    rw [pyBound_zero, pyBound_clamped, pyBound_clamped, List.drop_zero]
  · intro text sp
    rw [apply_redactions_cons]
    simp [List.append_assoc]

/-- Consecutive separation plus well-formedness gives a start-ordered chain. -/
lemma chain_disj_startLE : ∀ (l : List Span), (∀ s ∈ l, s.start ≤ s.«end») →
    List.Chain' (fun a b : Span => a.«end» ≤ b.start) l → List.Chain' startLE l := by
  intro l
  induction l with
  | nil => intro _ _; exact List.chain'_nil
  | cons s rest ih =>
    intro hwf hch
    rw [List.chain'_cons'] at hch ⊢
    refine ⟨?_, ih (fun x hx => hwf x (List.mem_cons_of_mem _ hx)) hch.2⟩
    intro b hb
    have h1 := hch.1 b hb
    have h2 := hwf s (by simp)
    show s.start ≤ b.start
    omega

/-- The rewrite loop of `apply_redactions`, related to the specification-side
concatenation `replaceSpec`. -/
lemma apply_redactions_loop (text : List Char) :
    ∀ (spans : List Span) (out : List Char) (i : Int),
      0 ≤ i →
      (∀ s ∈ spans, 0 ≤ s.start ∧ s.start ≤ s.«end») →
      List.Chain' (fun a b : Span => a.«end» ≤ b.start) spans →
      (∀ s ∈ spans.head?, i ≤ s.start) →
      (spans.foldl (fun (acc : List Char × Int) (t : Span) =>
          (acc.1 ++ pySlice text acc.2 t.start ++ t.replacement, t.«end»)) (out, i)).1 ++
        pyDropFrom text (spans.foldl (fun (acc : List Char × Int) (t : Span) =>
          (acc.1 ++ pySlice text acc.2 t.start ++ t.replacement, t.«end»)) (out, i)).2 =
      out ++ replaceSpec text i.toNat spans := by
  intro spans
  induction spans with
  | nil =>
    intro out i hi _ _ _
    simp only [List.foldl_nil, replaceSpec]
    rw [pyDropFrom_nonneg _ _ hi]
  | cons s rest ih =>
    intro out i hi hwf hch hhead
    have hs0 : 0 ≤ s.start ∧ s.start ≤ s.«end» := hwf s (by simp)
    have his : i ≤ s.start := hhead s rfl
    rw [List.foldl_cons]
    rw [ih (out ++ pySlice text i s.start ++ s.replacement) s.«end» (by omega)
      (fun x hx => hwf x (List.mem_cons_of_mem _ hx)) (List.chain'_cons'.mp hch).2 ?_]
    · rw [pySlice_nonneg text i s.start hi hs0.1]
      simp only [replaceSpec]
      simp [List.append_assoc]
    · intro x hx
      have := (List.chain'_cons'.mp hch).1 x hx
      omega

/-- C5: for every text and every well-formed, non-overlapping,
start-ascending span list, the replace-policy reconstruction
`apply_redactions` returns exactly the concatenation, in span order, of the
untouched slice before each span followed by that span's replacement string,
ending with the tail after the last span (`replaceSpec`); in particular all
text outside the spans is preserved and exactly one replacement is inserted
per span, in original order. -/
theorem apply_redactions_is_replace_spec (text : List Char) (spans : List Span)
    (hwf : ∀ s ∈ spans, 0 ≤ s.start ∧ s.start ≤ s.«end»)
    (hch : List.Chain' (fun a b : Span => a.«end» ≤ b.start) spans) :
    apply_redactions text spans = replaceSpec text 0 spans := by
  cases spans with
  | nil => rfl
  | cons s rest =>
    have hsorted : List.Sorted startLE (s :: rest) := by
      rw [List.Sorted, ← List.chain'_iff_pairwise]
      exact chain_disj_startLE _ (fun x hx => (hwf x hx).2) hch
    rw [apply_redactions_cons, hsorted.insertionSort_eq]
    have := apply_redactions_loop text (s :: rest) [] 0 le_rfl hwf hch
      (fun x hx => by
        have := (hwf s (by simp)).1
        simp only [List.head?_cons, Option.mem_def, Option.some.injEq] at hx
        subst hx
        exact this)
    simpa using this

/-- C5 witness: the spec's own example — spans `[(0,5,"[A]"), (10,15,"[B]")]`
on a 20-character text. -/
theorem apply_redactions_is_replace_spec_witness :
    apply_redactions "abcdefghijklmnopqrst".toList
        [⟨"A", "a", 0, 5, 0, "[A]".toList⟩, ⟨"B", "b", 10, 15, 0, "[B]".toList⟩] =
      replaceSpec "abcdefghijklmnopqrst".toList 0
        [⟨"A", "a", 0, 5, 0, "[A]".toList⟩, ⟨"B", "b", 10, 15, 0, "[B]".toList⟩] :=
  apply_redactions_is_replace_spec _ _ (by decide)
    (List.chain'_cons.mpr ⟨by decide, List.chain'_singleton _⟩)

/-! ## Lemmas about the sentence segmenter -/

lemma findSub_some : ∀ {t sub : List Char} {m : Nat},
    findSub sub t = some m → m + sub.length ≤ t.length ∧ (t.drop m).take sub.length = sub := by
  intro t
  induction t with
  | nil =>
    intro sub m h
    simp only [findSub] at h
    split at h
    · rcases h with ⟨rfl⟩
      have hsub : sub = [] := List.eq_nil_of_length_eq_zero (by omega)
      subst hsub
      exact ⟨by omega, rfl⟩
    · exact absurd h (by simp)
  | cons a t ih =>
    intro sub m h
    simp only [findSub] at h
    split at h
    · split at h
      · rcases h with ⟨rfl⟩
        refine ⟨by simpa using ‹sub.length ≤ t.length + 1›, ?_⟩
        assumption
      · rcases Option.map_eq_some'.mp h with ⟨m', hm', rfl⟩
        have := ih hm'
        exact ⟨by simp; omega, this.2⟩
    · exact absurd h (by simp)

lemma str_find_some {text sub : List Char} {start j : Nat}
    (h : str_find text sub start = some j) :
    start ≤ j ∧ j + sub.length ≤ text.length ∧ (text.drop j).take sub.length = sub := by
  unfold str_find at h
  split at h
  · rcases Option.map_eq_some'.mp h with ⟨m, hm, rfl⟩
    have hf := findSub_some hm
    rw [List.length_drop] at hf
    refine ⟨by omega, by omega, ?_⟩
    rw [Nat.add_comm m start, ← List.drop_drop]
    exact hf.2
  · exact absurd h (by simp)

lemma offsetsLoop_sound (text : List Char) :
    ∀ (sents : List (List Char)) (cur : Nat) (sp : Nat × Nat × List Char),
      sp ∈ offsetsLoop text sents cur →
      sp.2.1 = sp.1 + sp.2.2.length ∧
        ((sp.2.2 = sliceN text sp.1 sp.2.1 ∧ sp.2.1 ≤ text.length) ∨
          str_find text sp.2.2 sp.1 = none) := by
  intro sents
  induction sents with
  | nil =>
    intro cur sp h
    simp [offsetsLoop] at h
  | cons sent rest ih =>
    intro cur sp h
    simp only [offsetsLoop] at h
    rcases List.mem_cons.mp h with h | h
    · subst h
      refine ⟨rfl, ?_⟩
      cases hf : str_find text sent cur with
      | none =>
        right
        simp only [hf, Option.getD_none]
      | some j =>
        left
        have hs := str_find_some hf
        simp only [hf, Option.getD_some]
        constructor
        · unfold sliceN
          rw [← List.take_drop]
          exact hs.2.2.symm
        · omega
    · exact ih _ sp h

/-- C8 counterexample: when the tokenizer's sentence does not occur verbatim
in the text, the fallback produces a span whose recorded text is *not* the
slice of the original at its offsets — on text `"ab"` with tokenizer output
`["xy"]` the segmenter returns `(0, 2, "xy")` although `original[0:2] = "ab"`. -/
theorem sentences_with_offsets_fallback_misaligns :
    sentences_with_offsets "ab".toList ["xy".toList] = [(0, 2, "xy".toList)] ∧
      ¬ "xy".toList = sliceN "ab".toList 0 2 := by
  constructor <;> decide

/-- C8 (amended): every span `(start, end, sent)` produced by
`sentences_with_offsets` satisfies `end = start + len(sent)`, and either
`sent` equals the original slice `text[start:end]` with `end ≤ len(text)`
(the verbatim-find case, and the whole-text fallback), or the sentence does
not occur in the text at or after `start` — the cursor fallback, which can
misalign offsets. -/
theorem sentences_with_offsets_sound (text : List Char) (sentences : List (List Char))
    (sp : Nat × Nat × List Char) (h : sp ∈ sentences_with_offsets text sentences) :
    sp.2.1 = sp.1 + sp.2.2.length ∧
      ((sp.2.2 = sliceN text sp.1 sp.2.1 ∧ sp.2.1 ≤ text.length) ∨
        str_find text sp.2.2 sp.1 = none) := by
  unfold sentences_with_offsets at h
  split at h
  · simp at h
  · split at h
    · simp only [List.mem_singleton] at h
      subst h
      refine ⟨by simp, Or.inl ⟨?_, by simp⟩⟩
      unfold sliceN
      simp
    · exact offsetsLoop_sound text sentences 0 sp h

/-- C8 witness: the amended theorem applied to the spec's own example
(`"Hello. World."` with tokenizer output `["Hello.", "World."]`). -/
theorem sentences_with_offsets_sound_witness :
    (6 : Nat) = 0 + "Hello.".toList.length ∧
      (("Hello.".toList = sliceN "Hello. World.".toList 0 6 ∧
          6 ≤ "Hello. World.".toList.length) ∨
        str_find "Hello. World.".toList "Hello.".toList 0 = none) :=
  sentences_with_offsets_sound "Hello. World.".toList
    ["Hello.".toList, "World.".toList] (0, 6, "Hello.".toList) (by decide)

/-! ## Lemmas about the diff scan -/

lemma runLen_nil_left (bs : List Char) : runLen [] bs = 0 := rfl

lemma runLen_nil_right (as : List Char) : runLen as [] = 0 := by
  cases as <;> rfl

lemma runLen_cons (a b : Char) (as bs : List Char) :
    runLen (a :: as) (b :: bs) = if a ≠ b then runLen as bs + 1 else 0 := rfl

lemma runLen_le_left : ∀ (as bs : List Char), runLen as bs ≤ as.length := by
  intro as
  induction as with
  | nil => intro bs; rw [runLen_nil_left]; omega
  | cons a as ih =>
    intro bs
    cases bs with
    | nil => rw [runLen_nil_right]; omega
    | cons b bs =>
      rw [runLen_cons]
      split
      · have := ih bs
        simp only [List.length_cons]
        omega
      · omega

lemma runLen_le_right : ∀ (as bs : List Char), runLen as bs ≤ bs.length := by
  intro as
  induction as with
  | nil => intro bs; rw [runLen_nil_left]; omega
  | cons a as ih =>
    intro bs
    cases bs with
    | nil => rw [runLen_nil_right]; omega
    | cons b bs =>
      rw [runLen_cons]
      split
      · have := ih bs
        simp only [List.length_cons]
        omega
      · omega

lemma runLen_lt : ∀ (as bs : List Char) (m : Nat),
    m < runLen as bs → as[m]? ≠ bs[m]? := by
  intro as
  induction as with
  | nil => intro bs m h; rw [runLen_nil_left] at h; omega
  | cons a as ih =>
    intro bs m h
    cases bs with
    | nil => rw [runLen_nil_right] at h; omega
    | cons b bs =>
      rw [runLen_cons] at h
      by_cases hab : a = b
      · rw [if_neg (not_not_intro hab)] at h; omega
      · rw [if_pos hab] at h
        cases m with
        | zero => simpa using hab
        | succ m => simpa using ih bs m (by omega)

lemma runLen_stop : ∀ (as bs : List Char),
    as.length ≤ runLen as bs ∨ bs.length ≤ runLen as bs ∨
      as[runLen as bs]? = bs[runLen as bs]? := by
  intro as
  induction as with
  | nil => intro bs; left; simp [runLen_nil_left]
  | cons a as ih =>
    intro bs
    cases bs with
    | nil => right; left; simp [runLen_nil_right]
    | cons b bs =>
      rw [runLen_cons]
      by_cases hab : a = b
      · rw [if_neg (not_not_intro hab)]
        right; right
        simpa using hab
      · rw [if_pos hab]
        rcases ih bs with h | h | h
        · left; simp only [List.length_cons]; omega
        · right; left; simp only [List.length_cons]; omega
        · right; right
          simpa using h

lemma diffScanF_nil (fuel : Nat) (c : List Char) (i : Nat) :
    diffScanF fuel [] c i = some [] := by
  cases fuel <;> rfl

lemma diffScanF_cons_nil (fuel : Nat) (a : Char) (as : List Char) (i : Nat) :
    diffScanF fuel (a :: as) [] i = none := by
  cases fuel <;> rfl

lemma diffScanF_succ_cons (fuel : Nat) (a b : Char) (as bs : List Char) (i : Nat) :
    diffScanF (fuel + 1) (a :: as) (b :: bs) i =
      if a = b then diffScanF fuel as bs (i + 1)
      else
        match diffScanF fuel (as.drop (runLen as bs)) (bs.drop (runLen as bs))
            (i + 1 + runLen as bs) with
        | none => none
        | some rest =>
          some (⟨a :: as.take (runLen as bs), i, i + 1 + runLen as bs⟩ :: rest) := rfl

lemma diffScanF_succ_eq (fuel : Nat) (a b : Char) (as bs : List Char) (i : Nat)
    (hab : a = b) :
    diffScanF (fuel + 1) (a :: as) (b :: bs) i = diffScanF fuel as bs (i + 1) := by
  rw [diffScanF_succ_cons, if_pos hab]

lemma diffScanF_succ_ne_none (fuel : Nat) (a b : Char) (as bs : List Char) (i : Nat)
    (hab : ¬ a = b)
    (hd : diffScanF fuel (as.drop (runLen as bs)) (bs.drop (runLen as bs))
      (i + 1 + runLen as bs) = none) :
    diffScanF (fuel + 1) (a :: as) (b :: bs) i = none := by
  rw [diffScanF_succ_cons, if_neg hab, hd]

lemma diffScanF_succ_ne_some (fuel : Nat) (a b : Char) (as bs : List Char) (i : Nat)
    (rest : List TokSpan) (hab : ¬ a = b)
    (hd : diffScanF fuel (as.drop (runLen as bs)) (bs.drop (runLen as bs))
      (i + 1 + runLen as bs) = some rest) :
    diffScanF (fuel + 1) (a :: as) (b :: bs) i =
      some (⟨a :: as.take (runLen as bs), i, i + 1 + runLen as bs⟩ :: rest) := by
  rw [diffScanF_succ_cons, if_neg hab, hd]

lemma diffScanF_none_iff : ∀ (fuel : Nat) (t c : List Char) (i : Nat),
    t.length ≤ fuel → (diffScanF fuel t c i = none ↔ c.length < t.length) := by
  intro fuel
  induction fuel with
  | zero =>
    intro t c i hle
    cases t with
    | nil => simp [diffScanF_nil]
    | cons a as => simp at hle
  | succ fuel ih =>
    intro t c i hle
    cases t with
    | nil => simp [diffScanF_nil]
    | cons a as =>
      cases c with
      | nil => simp [diffScanF_cons_nil]
      | cons b bs =>
        by_cases hab : a = b
        · rw [diffScanF_succ_eq fuel a b as bs i hab,
            ih as bs (i + 1) (by simpa using hle)]
          simp
        · have hk1 := runLen_le_left as bs
          have hk2 := runLen_le_right as bs
          have hrec := ih (as.drop (runLen as bs)) (bs.drop (runLen as bs))
            (i + 1 + runLen as bs)
            (by simp only [List.length_drop]; simp only [List.length_cons] at hle; omega)
          cases hd : diffScanF fuel (as.drop (runLen as bs)) (bs.drop (runLen as bs))
              (i + 1 + runLen as bs) with
          | none =>
            rw [diffScanF_succ_ne_none fuel a b as bs i hab hd]
            have hlt := hrec.mp hd
            simp only [List.length_drop] at hlt
            simp only [List.length_cons]
            constructor
            · intro _; omega
            · intro _; trivial
          | some rest =>
            rw [diffScanF_succ_ne_some fuel a b as bs i rest hab hd]
            simp only [List.length_cons]
            constructor
            · intro hcontra
              exact absurd hcontra (by simp)
            · intro hlt
              have hnone := hrec.mpr (by simp only [List.length_drop]; omega)
              rw [hd] at hnone
              exact absurd hnone (by simp)

/-- C7 (amended): the diff scan of `detect_and_apply` raises an (unhandled)
IndexError exactly when the transformed string is shorter than the original;
when the transformed string is at least as long — including strictly longer —
the scan succeeds and returns a span list, silently computed from the first
`len(original)` positions.  There is no precondition check. -/
theorem diffScan_none_iff (t c : List Char) (i : Nat) :
    diffScan t c i = none ↔ c.length < t.length :=
  diffScanF_none_iff t.length t c i le_rfl

/-- C7 counterexample: on unequal-length inputs (`"ab"` vs the longer
`"abc"`) the scan does not fail — it returns a span list (here the empty
one), refuting the claim that a fatal precondition error is reported. -/
theorem diffScan_succeeds_on_longer :
    diffScan "ab".toList "abc".toList 0 = some [] ∧
      ("ab".toList.length = "abc".toList.length → False) := by
  constructor <;> decide

/-- Soundness of the diff scan relative to the full input strings: every
returned span lies in `[i, len)`, carries the original slice as its token,
covers only differing positions, all differing positions from `i` on are
covered, and the spans are separated in ascending order. -/
lemma diffScanF_sound : ∀ (fuel : Nat) (t cens : List Char) (i : Nat) (L : List TokSpan),
    t.length ≤ cens.length →
    t.length - i ≤ fuel →
    diffScanF fuel (t.drop i) (cens.drop i) i = some L →
    (∀ sp ∈ L,
        i ≤ sp.start ∧ sp.start < sp.«end» ∧ sp.«end» ≤ t.length ∧
          sp.token = sliceN t sp.start sp.«end» ∧
          ∀ j, sp.start ≤ j → j < sp.«end» → t[j]? ≠ cens[j]?) ∧
      (∀ j, i ≤ j → j < t.length → t[j]? ≠ cens[j]? →
        ∃ sp ∈ L, sp.start ≤ j ∧ j < sp.«end») ∧
      List.Chain' (fun x y : TokSpan => x.«end» < y.start) L := by
  intro fuel
  induction fuel with
  | zero =>
    intro t cens i L hlen hfuel h
    have hti : t.length ≤ i := by omega
    rw [List.drop_eq_nil_of_le hti, diffScanF_nil] at h
    replace h := Option.some.inj h
    subst h
    refine ⟨by simp, ?_, List.chain'_nil⟩
    intro j hij hjt _
    omega
  | succ fuel ih =>
    intro t cens i L hlen hfuel h
    cases ht : t.drop i with
    | nil =>
      rw [ht, diffScanF_nil] at h
      replace h := Option.some.inj h
      subst h
      have hti : t.length ≤ i := List.drop_eq_nil_iff.mp ht
      refine ⟨by simp, ?_, List.chain'_nil⟩
      intro j hij hjt _
      omega
    | cons a as =>
      have hlas : as.length = t.length - (i + 1) := by
        have := congrArg List.length ht
        simp only [List.length_drop, List.length_cons] at this
        omega
      have hti : i < t.length := by
        have := congrArg List.length ht
        simp only [List.length_drop, List.length_cons] at this
        omega
      cases hc : cens.drop i with
      | nil =>
        exfalso
        have := List.drop_eq_nil_iff.mp hc
        omega
      | cons b bs =>
        have hlbs : bs.length = cens.length - (i + 1) := by
          have := congrArg List.length hc
          simp only [List.length_drop, List.length_cons] at this
          omega
        have hta : t[i]? = some a := by
          have h0 := List.getElem?_drop t i 0
          rw [ht] at h0
          simpa using h0.symm
        have htb : cens[i]? = some b := by
          have h0 := List.getElem?_drop cens i 0
          rw [hc] at h0
          simpa using h0.symm
        have htas : t.drop (i + 1) = as := by
          rw [← List.drop_drop, ht]
          rfl
        have hcbs : cens.drop (i + 1) = bs := by
          rw [← List.drop_drop, hc]
          rfl
        rw [ht, hc] at h
        by_cases hab : a = b
        · rw [diffScanF_succ_eq fuel a b as bs i hab] at h
          rw [← htas, ← hcbs] at h
          have hrec := ih t cens (i + 1) L hlen (by omega) h
          refine ⟨?_, ?_, hrec.2.2⟩
          · intro sp hsp
            have h1 := hrec.1 sp hsp
            exact ⟨by omega, h1.2.1, h1.2.2.1, h1.2.2.2.1, h1.2.2.2.2⟩
          · intro j hij hjt hne
            rcases Nat.eq_or_lt_of_le hij with heq | hij'
            · exfalso
              subst heq
              rw [hta, htb] at hne
              exact hne (by rw [hab])
            · exact hrec.2.1 j (by omega) hjt hne
        · have hk1 := runLen_le_left as bs
          have hk2 := runLen_le_right as bs
          cases hd : diffScanF fuel (as.drop (runLen as bs)) (bs.drop (runLen as bs))
              (i + 1 + runLen as bs) with
          | none =>
            rw [diffScanF_succ_ne_none fuel a b as bs i hab hd] at h
            exact absurd h (by simp)
          | some rest =>
            rw [diffScanF_succ_ne_some fuel a b as bs i rest hab hd] at h
            replace h := Option.some.inj h
            subst h
            have hdrop1 : as.drop (runLen as bs) = t.drop (i + 1 + runLen as bs) := by
              rw [← htas, List.drop_drop]
            have hdrop2 : bs.drop (runLen as bs) = cens.drop (i + 1 + runLen as bs) := by
              rw [← hcbs, List.drop_drop]
            rw [hdrop1, hdrop2] at hd
            have hrec := ih t cens (i + 1 + runLen as bs) rest hlen (by omega) hd
            have hdiff_run : ∀ m, m < runLen as bs → t[i + 1 + m]? ≠ cens[i + 1 + m]? := by
              intro m hm
              have hrl := runLen_lt as bs m hm
              rw [← htas, ← hcbs, List.getElem?_drop, List.getElem?_drop] at hrl
              exact hrl
            have htok : a :: as.take (runLen as bs) =
                sliceN t i (i + 1 + runLen as bs) := by
              unfold sliceN
              rw [Nat.add_assoc i 1 (runLen as bs), ← List.take_drop, ht,
                Nat.add_comm 1 (runLen as bs), List.take_succ_cons]
            have hend : i + 1 + runLen as bs ≤ t.length := by omega
            refine ⟨?_, ?_, ?_⟩
            · intro sp hsp
              rcases List.mem_cons.mp hsp with rfl | hsp'
              · refine ⟨le_rfl, by show i < i + 1 + runLen as bs; omega,
                  hend, htok, ?_⟩
                intro j hij hje
                have hij' : i ≤ j := hij
                have hje' : j < i + 1 + runLen as bs := hje
                rcases Nat.eq_or_lt_of_le hij' with heq | hlt
                · subst heq
                  rw [hta, htb]
                  intro hcon
                  exact hab (Option.some.inj hcon)
                · have hm : j - (i + 1) < runLen as bs := by omega
                  have hdr := hdiff_run (j - (i + 1)) hm
                  rw [show i + 1 + (j - (i + 1)) = j from by omega] at hdr
                  exact hdr
              · have h1 := hrec.1 sp hsp'
                exact ⟨by omega, h1.2.1, h1.2.2.1, h1.2.2.2.1, h1.2.2.2.2⟩
            · intro j hij hjt hne
              rcases Nat.lt_or_ge j (i + 1 + runLen as bs) with hlt | hge
              · exact ⟨⟨a :: as.take (runLen as bs), i, i + 1 + runLen as bs⟩,
                  List.mem_cons_self _ _, hij, hlt⟩
              · rcases hrec.2.1 j hge hjt hne with ⟨sp, hspmem, hsp⟩
                exact ⟨sp, List.mem_cons_of_mem _ hspmem, hsp⟩
            · rw [List.chain'_cons']
              refine ⟨?_, hrec.2.2⟩
              intro y hy
              have hymem : y ∈ rest := List.mem_of_mem_head? hy
              have h1 := hrec.1 y hymem
              show i + 1 + runLen as bs < y.start
              rcases Nat.lt_or_ge (i + 1 + runLen as bs) y.start with hlt | hge
              · exact hlt
              · exfalso
                have hystart : y.start = i + 1 + runLen as bs := by omega
                have hdiffy := h1.2.2.2.2 y.start le_rfl h1.2.1
                have hyt : y.start < t.length := by
                  have := h1.2.1
                  have := h1.2.2.1
                  omega
                rcases runLen_stop as bs with hs | hs | hs
                · omega
                · omega
                · have e1 : (t.drop (i + 1))[runLen as bs]? = t[i + 1 + runLen as bs]? :=
                    List.getElem?_drop t (i + 1) (runLen as bs)
                  have e2 : (cens.drop (i + 1))[runLen as bs]? =
                      cens[i + 1 + runLen as bs]? :=
                    List.getElem?_drop cens (i + 1) (runLen as bs)
                  rw [htas] at e1
                  rw [hcbs] at e2
                  rw [hystart] at hdiffy
                  exact hdiffy (by rw [← e1, ← e2]; exact hs)

/-- C6: for equal-length inputs, the diff scan of `detect_and_apply` returns
exactly the maximal contiguous index ranges on which the two strings differ,
in ascending order of start, each carrying the extracted original substring
`original[start:end]` as its token: every span covers only differing
positions, every differing position lies in some span, each span is
non-empty and in bounds, and consecutive spans are separated by at least one
matching position. -/
theorem diffScan_extracts_maximal_diffs (t cens : List Char) (h : t.length = cens.length) :
    ∃ L, diffScan t cens 0 = some L ∧
      (∀ sp ∈ L, sp.start < sp.«end» ∧ sp.«end» ≤ t.length ∧
        sp.token = sliceN t sp.start sp.«end» ∧
        ∀ j, sp.start ≤ j → j < sp.«end» → t[j]? ≠ cens[j]?) ∧
      (∀ j, j < t.length → t[j]? ≠ cens[j]? → ∃ sp ∈ L, sp.start ≤ j ∧ j < sp.«end») ∧
      List.Chain' (fun x y : TokSpan => x.«end» < y.start) L := by
  cases hL : diffScan t cens 0 with
  | none =>
    exfalso
    have := (diffScanF_none_iff t.length t cens 0 le_rfl).mp hL
    omega
  | some L =>
    have hs := diffScanF_sound t.length t cens 0 L (by omega) (by omega) hL
    refine ⟨L, rfl, ?_, ?_, hs.2.2⟩
    · intro sp hsp
      have h1 := hs.1 sp hsp
      exact ⟨h1.2.1, h1.2.2.1, h1.2.2.2.1, h1.2.2.2.2⟩
    · intro j hjt hne
      exact hs.2.1 j (Nat.zero_le j) hjt hne

/-- C6 witness: the theorem applied to the spec's example — `"bad"` censored
to `"***"` at offset 4 of `"say bad now"`. -/
theorem diffScan_extracts_maximal_diffs_witness :
    ∃ L, diffScan "say bad now".toList "say *** now".toList 0 = some L ∧
      (∀ sp ∈ L, sp.start < sp.«end» ∧ sp.«end» ≤ "say bad now".toList.length ∧
        sp.token = sliceN "say bad now".toList sp.start sp.«end» ∧
        ∀ j, sp.start ≤ j → j < sp.«end» →
          "say bad now".toList[j]? ≠ "say *** now".toList[j]?) ∧
      (∀ j, j < "say bad now".toList.length →
        "say bad now".toList[j]? ≠ "say *** now".toList[j]? →
          ∃ sp ∈ L, sp.start ≤ j ∧ j < sp.«end») ∧
      List.Chain' (fun x y : TokSpan => x.«end» < y.start) L :=
  diffScan_extracts_maximal_diffs _ _ (by decide)

end ZGrid
